import Mathlib

set_option maxHeartbeats 1000000

/-!
Shallow embedding of miratope-lang src/name.rs: the language-independent
representation of polytope names and its canonicalizing construction
operations.
-/



/-- Modelled from the spec: the coordinate point type of the geometry crate
(miratope-core is not under src). Only equality and an epsilon-closeness
predicate on points are ever consulted by the naming code, so we embed a
point as an abstract value with decidable equality. -/
def Pt : Type := Int

instance : DecidableEq Pt := inferInstanceAs (DecidableEq Int)

instance (n : Nat) : OfNat Pt n := inferInstanceAs (OfNat Int n)

/-- Whether a Name refers to a concrete regular polytope (name.rs, enum Regular). -/
inductive Regular where
  | yes (center : Pt)
  | no
deriving DecidableEq

/-- Regular::is_yes (name.rs line 179). -/
def Regular.is_yes : Regular → Bool
  | .yes _ => true
  | .no => false

/-- The NameType capability marker together with its two NameData capsule
strategies (name.rs traits NameType and NameData). R is the DataRegular
capsule type, P the DataPoint capsule type. The fields embed: the
is_abstract flag, Default for DataRegular, and the contains and satisfies
queries of the two capsules. The near field is modelled from the spec: the
epsilon comparison (c - original_center).norm() < Float::EPS used inside
the dual rules, whose exact floating-point semantics live in the external
geometry crate; we keep it as an arbitrary boolean predicate on points. -/
structure NameKind (R P : Type) where
  isAbstract : Bool
  drDefault : R
  contains : R → Regular → Bool
  rsatisfies : R → (Regular → Bool) → Bool
  psatisfies : P → (Pt → Bool) → Bool
  near : Pt → Pt → Bool

/-- The recursive tagged union of polytope names (name.rs, enum Name<T>),
with the capsule types R (DataRegular) and P (DataPoint) as parameters. -/
inductive Name (R P : Type) where
  | Nullitope
  | Point
  | Dyad
  | Triangle (regular : R)
  | Square
  | Rectangle
  | Orthodiagonal
  | Polygon (regular : R) (n : Nat)
  | Pyramid (base : Name R P)
  | Prism (base : Name R P)
  | Tegum (base : Name R P)
  | Multipyramid (bases : List (Name R P))
  | Multiprism (bases : List (Name R P))
  | Multitegum (bases : List (Name R P))
  | Multicomb (bases : List (Name R P))
  | Antiprism (base : Name R P)
  | Antitegum (base : Name R P) (center : P)
  | Petrial (base : Name R P)
  | Dual (base : Name R P) (center : P)
  | Simplex (regular : R) (rank : Int)
  | Hyperblock (regular : R) (rank : Int)
  | Orthoplex (regular : R) (rank : Int)
  | Generic (facet_count : Nat) (rank : Int)
  | Small (base : Name R P)
  | Great (base : Name R P)
  | Stellated (base : Name R P)

/-- The abstract instantiation Abs: both capsules are phantom (AbsData),
they store nothing, compare equal to everything, and answer every
contains/satisfies query with true (name.rs lines 71-103). -/
def Abs : NameKind Unit Unit where
  isAbstract := true
  drDefault := ()
  contains := fun _ _ => true
  rsatisfies := fun _ _ => true
  psatisfies := fun _ _ => true
  near := fun _ _ => true

/-- The concrete instantiation Con: both capsules are ConData, storing a
real value; contains is value equality and satisfies evaluates the
predicate on the stored value (name.rs lines 105-153). The near parameter
is the epsilon point-closeness predicate of the geometry crate. -/
def ConK (near : Pt → Pt → Bool) : NameKind Regular Pt where
  isAbstract := false
  drDefault := .no
  contains := fun r v => decide (r = v)
  rsatisfies := fun r f => f r
  psatisfies := fun p f => f p
  near := near

/-- An index distinguishing the 26 variants of Name, embedding Rust's
mem::discriminant for the comparisons inside is_valid. -/
def Name.discr {R P : Type} : Name R P → Nat
  | .Nullitope => 0
  | .Point => 1
  | .Dyad => 2
  | .Triangle _ => 3
  | .Square => 4
  | .Rectangle => 5
  | .Orthodiagonal => 6
  | .Polygon _ _ => 7
  | .Pyramid _ => 8
  | .Prism _ => 9
  | .Tegum _ => 10
  | .Multipyramid _ => 11
  | .Multiprism _ => 12
  | .Multitegum _ => 13
  | .Multicomb _ => 14
  | .Antiprism _ => 15
  | .Antitegum _ _ => 16
  | .Petrial _ => 17
  | .Dual _ _ => 18
  | .Simplex _ _ => 19
  | .Hyperblock _ _ => 20
  | .Orthoplex _ _ => 21
  | .Generic _ _ => 22
  | .Small _ => 23
  | .Great _ => 24
  | .Stellated _ => 25

/-- Name::is_valid (name.rs lines 341-387): the debug predicate checking
the variant-specific invariants of the top node. In the multi-operation
cases the Rust code compares mem::discriminant of each base with that of
self; as self's variant is known in each branch, this is the discr of that
variant. The check does not recurse into subtrees. -/
def Name.is_valid {R P : Type} (K : NameKind R P) : Name R P → Bool
  | .Polygon regular n =>
      if n = 2 then true
      else if K.rsatisfies regular Regular.is_yes then decide (5 ≤ n) else decide (4 ≤ n)
  | .Simplex _ rank => decide (3 ≤ rank)
  | .Hyperblock _ rank => decide (3 ≤ rank)
  | .Orthoplex _ rank => decide (3 ≤ rank)
  | .Multipyramid bases =>
      decide (2 ≤ bases.length) && bases.all (fun b => b.discr != 11)
  | .Multiprism bases =>
      decide (2 ≤ bases.length) && bases.all (fun b => b.discr != 12)
  | .Multitegum bases =>
      decide (2 ≤ bases.length) && bases.all (fun b => b.discr != 13)
  | .Multicomb bases =>
      decide (2 ≤ bases.length) && bases.all (fun b => b.discr != 14)
  | .Generic n rank => decide (2 ≤ n) && decide (3 ≤ rank) && decide (rank ≤ 20)
  | _ => true

/-- Name::rectangle (name.rs lines 696-702). -/
def Name.rectangle {R P : Type} (K : NameKind R P) : Name R P :=
  if K.isAbstract then .Square else .Rectangle

/-- Name::orthodiagonal (name.rs lines 706-712). -/
def Name.orthodiagonal {R P : Type} (K : NameKind R P) : Name R P :=
  if K.isAbstract then .Square else .Orthodiagonal

/-- Name::simplex smart constructor (name.rs lines 715-723). Rank is
embedded as an integer; the Rust Rank type (miratope-core, not under src)
is per the spec a rank-aware integer that is at least -1. -/
def Name.simplex {R P : Type} (regular : R) (rank : Int) : Name R P :=
  if rank = -1 then .Nullitope
  else if rank = 0 then .Point
  else if rank = 1 then .Dyad
  else if rank = 2 then .Triangle regular
  else .Simplex regular rank

/-- Name::hyperblock smart constructor (name.rs lines 726-734). -/
def Name.hyperblock {R P : Type} (K : NameKind R P) (regular : R) (rank : Int) : Name R P :=
  if rank = -1 then .Nullitope
  else if rank = 0 then .Point
  else if rank = 1 then .Dyad
  else if rank = 2 then Name.rectangle K
  else .Hyperblock regular rank

/-- Name::orthoplex smart constructor (name.rs lines 737-745). -/
def Name.orthoplex {R P : Type} (K : NameKind R P) (regular : R) (rank : Int) : Name R P :=
  if rank = -1 then .Nullitope
  else if rank = 0 then .Point
  else if rank = 1 then .Dyad
  else if rank = 2 then Name.orthodiagonal K
  else .Orthoplex regular rank

/-- Name::polygon smart constructor (name.rs lines 748-760). -/
def Name.polygon {R P : Type} (K : NameKind R P) (regular : R) (n : Nat) : Name R P :=
  if n = 3 then .Triangle regular
  else if n = 4 then
    (if K.rsatisfies regular Regular.is_yes then .Square else .Polygon regular n)
  else .Polygon regular n

/-- Name::generic smart constructor (name.rs lines 391-407). -/
def Name.generic {R P : Type} (K : NameKind R P) (n : Nat) (rank : Int) : Name R P :=
  if rank = -1 then .Nullitope
  else if rank = 0 then .Point
  else if rank = 1 then .Dyad
  else if rank = 2 then Name.polygon K K.drDefault n
  else .Generic n rank

/-- The final 0/1/many selection shared by the four multi-operation
mergers (the match on new_bases.len() in name.rs lines 789-793, 834-838,
879-883 and 911-915): an empty output list becomes the given literal, a
singleton returns its sole element (swap_remove(0)), and a longer list is
wrapped by the given variant. -/
def Name.assemble {R P : Type} (empty : Name R P) (wrap : List (Name R P) → Name R P)
    (l : List (Name R P)) : Name R P :=
  match l with
  | [] => empty
  | [x] => x
  | l => wrap l

/-- One step of the base-walking loop of Name::multipyramid (name.rs lines
770-780): the accumulator is the new_bases list built so far together with
the running pyramid_count. -/
def Name.mpyStep {R P : Type} :
    (List (Name R P) × Int) → Name R P → (List (Name R P) × Int)
  | (acc, count), .Nullitope => (acc, count)
  | (acc, count), .Point => (acc, count + 1)
  | (acc, count), .Dyad => (acc, count + 2)
  | (acc, count), .Triangle _ => (acc, count + 3)
  | (acc, count), .Simplex _ rank => (acc, count + (rank + 1))
  | (acc, count), .Multipyramid extra => (acc ++ extra, count)
  | (acc, count), b => (acc ++ [b], count)

/-- Name::multipyramid merger (name.rs lines 764-803). -/
def Name.multipyramid {R P : Type} (K : NameKind R P) (bases : List (Name R P)) : Name R P :=
  let p := bases.foldl Name.mpyStep ([], 0)
  let new_bases :=
    if 2 ≤ p.2 then p.1 ++ [Name.simplex K.drDefault (p.2 - 1)] else p.1
  let m := Name.assemble .Nullitope .Multipyramid new_bases
  if p.2 = 1 then .Pyramid m else m

/-- One step of the base-walking loop of Name::multiprism (name.rs lines
813-825). The Nullitope early return is handled by the guard in
Name.multiprism, so this step never sees a Nullitope there. -/
def Name.mprStep {R P : Type} :
    (List (Name R P) × Int) → Name R P → (List (Name R P) × Int)
  | (acc, count), .Point => (acc, count)
  | (acc, count), .Dyad => (acc, count + 1)
  | (acc, count), .Square => (acc, count + 2)
  | (acc, count), .Rectangle => (acc, count + 2)
  | (acc, count), .Hyperblock _ rank => (acc, count + rank)
  | (acc, count), .Multiprism extra => (acc ++ extra, count)
  | (acc, count), b => (acc ++ [b], count)

/-- Whether a name is the Nullitope variant. -/
def Name.isNullitope {R P : Type} : Name R P → Bool
  | .Nullitope => true
  | _ => false

/-- Name::multiprism merger (name.rs lines 807-848). The Rust loop returns
Nullitope as soon as it meets a Nullitope base, regardless of the state
accumulated so far; this is embedded as a guard over the input list. -/
def Name.multiprism {R P : Type} (K : NameKind R P) (bases : List (Name R P)) : Name R P :=
  if bases.any Name.isNullitope then .Nullitope else
  let p := bases.foldl Name.mprStep ([], 0)
  let new_bases :=
    if 2 ≤ p.2 then p.1 ++ [Name.hyperblock K K.drDefault p.2] else p.1
  let m := Name.assemble .Point .Multiprism new_bases
  if p.2 = 1 then .Prism m else m

/-- One step of the base-walking loop of Name::multitegum (name.rs lines
858-870). The Nullitope early return is handled by the guard in
Name.multitegum. -/
def Name.mtgStep {R P : Type} :
    (List (Name R P) × Int) → Name R P → (List (Name R P) × Int)
  | (acc, count), .Point => (acc, count)
  | (acc, count), .Dyad => (acc, count + 1)
  | (acc, count), .Square => (acc, count + 2)
  | (acc, count), .Orthodiagonal => (acc, count + 2)
  | (acc, count), .Orthoplex _ rank => (acc, count + rank)
  | (acc, count), .Multitegum extra => (acc ++ extra, count)
  | (acc, count), b => (acc ++ [b], count)

/-- Name::multitegum merger (name.rs lines 852-893). -/
def Name.multitegum {R P : Type} (K : NameKind R P) (bases : List (Name R P)) : Name R P :=
  if bases.any Name.isNullitope then .Nullitope else
  let p := bases.foldl Name.mtgStep ([], 0)
  let new_bases :=
    if 2 ≤ p.2 then p.1 ++ [Name.orthoplex K K.drDefault p.2] else p.1
  let m := Name.assemble .Point .Multitegum new_bases
  if p.2 = 1 then .Tegum m else m

/-- One step of the base-walking loop of Name::multicomb (name.rs lines
902-908). -/
def Name.mcbStep {R P : Type} : List (Name R P) → Name R P → List (Name R P)
  | acc, .Multicomb extra => acc ++ extra
  | acc, b => acc ++ [b]

/-- Name::multicomb merger (name.rs lines 897-916). -/
def Name.multicomb {R P : Type} (bases : List (Name R P)) : Name R P :=
  Name.assemble .Point .Multicomb (bases.foldl Name.mcbStep [])

/-- Name::pyramid (name.rs lines 410-457). -/
def Name.pyramid {R P : Type} (K : NameKind R P) : Name R P → Name R P
  | .Nullitope => .Point
  | .Point => .Dyad
  | .Dyad => .Triangle K.drDefault
  | .Triangle regular =>
      if K.contains regular .no then .Simplex regular 3
      else .Pyramid (.Triangle regular)
  | .Simplex regular rank =>
      if K.contains regular .no then .Simplex regular (rank + 1)
      else .Pyramid (.Simplex regular rank)
  | .Pyramid base => Name.multipyramid K [.Dyad, base]
  | .Multipyramid bases => Name.multipyramid K (bases ++ [.Point])
  | n => .Pyramid n

/-- Name::prism (name.rs lines 460-496). -/
def Name.prism {R P : Type} (K : NameKind R P) : Name R P → Name R P
  | .Nullitope => .Nullitope
  | .Point => .Dyad
  | .Dyad => Name.rectangle K
  | .Rectangle => .Hyperblock K.drDefault 3
  | .Hyperblock regular rank =>
      if K.contains regular .no then .Hyperblock regular (rank + 1)
      else .Prism (.Hyperblock regular rank)
  | .Prism base => Name.multiprism K [Name.rectangle K, base]
  | .Multiprism bases => Name.multiprism K (bases ++ [.Dyad])
  | n => .Prism n

/-- Name::tegum (name.rs lines 499-535). -/
def Name.tegum {R P : Type} (K : NameKind R P) : Name R P → Name R P
  | .Nullitope => .Nullitope
  | .Point => .Dyad
  | .Dyad => Name.orthodiagonal K
  | .Orthodiagonal => .Orthoplex K.drDefault 3
  | .Orthoplex regular rank =>
      if K.contains regular .no then .Orthoplex regular (rank + 1)
      else .Tegum (.Orthoplex regular rank)
  | .Tegum base => Name.multitegum K [Name.orthodiagonal K, base]
  | .Multitegum bases => Name.multitegum K (bases ++ [.Dyad])
  | n => .Tegum n

/-- Name::antiprism (name.rs lines 538-556). -/
def Name.antiprism {R P : Type} (K : NameKind R P) : Name R P → Name R P
  | .Nullitope => .Point
  | .Point => .Dyad
  | .Dyad => .Orthodiagonal
  | .Simplex _ rank => .Orthoplex K.drDefault (rank + 1)
  | n => .Antiprism n

/-- Name::petrial (name.rs lines 682-692). -/
def Name.petrial {R P : Type} : Name R P → Name R P
  | .Petrial base => base
  | n => .Petrial n

/-- The predicate tested by the regular_dual macro (name.rs lines 562-581):
the stored regularity either is No, or is Yes about a center that the
supplied center capsule places within epsilon of. -/
def regularPred {R P : Type} (K : NameKind R P) (center : P) : Regular → Bool
  | .yes c0 => K.psatisfies center (fun c => K.near c c0)
  | .no => true

mutual
/-- Name::dual (name.rs lines 560-679). The regular_dual macro expands to
the regularPred test; modifier_dual and multimodifier_dual expand to the
is_abstract split. The arguments after the name are the center capsule and
the ambient facet count and rank of the original polytope. -/
def Name.dual {R P : Type} [DecidableEq P] (K : NameKind R P) :
    Name R P → P → Nat → Int → Name R P
  | .Nullitope, _, _, _ => .Nullitope
  | .Point, _, _, _ => .Point
  | .Dyad, _, _, _ => .Dyad
  | .Triangle regular, center, _, _ =>
      if K.rsatisfies regular (regularPred K center) then .Triangle regular
      else .Triangle K.drDefault
  | .Square, _, _, _ => Name.orthodiagonal K
  | .Rectangle, _, _, _ => Name.orthodiagonal K
  | .Orthodiagonal, _, _, _ => Name.polygon K K.drDefault 4
  | .Dual base original_center, center, fc, rank =>
      if center = original_center then base else .Generic fc rank
  | .Polygon regular n, center, _, _ =>
      if K.rsatisfies regular (regularPred K center) then .Polygon regular n
      else .Polygon K.drDefault n
  | .Simplex regular rank, center, _, _ =>
      if K.rsatisfies regular (regularPred K center) then .Simplex regular rank
      else .Simplex K.drDefault rank
  | .Hyperblock regular rank, center, _, _ =>
      if K.rsatisfies regular (regularPred K center) then .Orthoplex regular rank
      else .Orthoplex K.drDefault rank
  | .Orthoplex regular rank, center, _, _ =>
      if K.rsatisfies regular (regularPred K center) then .Hyperblock regular rank
      else .Hyperblock K.drDefault rank
  | .Pyramid base, center, fc, rank =>
      if K.isAbstract then .Pyramid (Name.dual K base center fc rank)
      else .Dual (.Pyramid base) center
  | .Prism base, center, fc, rank =>
      if K.isAbstract then .Tegum (Name.dual K base center fc rank)
      else .Dual (.Prism base) center
  | .Tegum base, center, fc, rank =>
      if K.isAbstract then .Prism (Name.dual K base center fc rank)
      else .Dual (.Tegum base) center
  | .Antiprism base, center, _, _ => .Antitegum base center
  | .Antitegum base original_center, center, _, _ =>
      if center = original_center then .Antiprism base
      else .Dual (.Antitegum base original_center) center
  | .Multipyramid bases, center, fc, rank =>
      if K.isAbstract then .Multipyramid (Name.dualList K bases center fc rank)
      else .Dual (.Multipyramid bases) center
  | .Multiprism bases, center, fc, rank =>
      if K.isAbstract then .Multitegum (Name.dualList K bases center fc rank)
      else .Dual (.Multiprism bases) center
  | .Multitegum bases, center, fc, rank =>
      if K.isAbstract then .Multiprism (Name.dualList K bases center fc rank)
      else .Dual (.Multitegum bases) center
  | .Multicomb bases, center, fc, rank =>
      if K.isAbstract then .Multicomb (Name.dualList K bases center fc rank)
      else .Dual (.Multicomb bases) center
  | .Petrial base, center, _, _ => .Dual (.Petrial base) center
  | .Generic n r0, center, _, _ => .Dual (.Generic n r0) center
  | .Small base, center, _, _ => .Dual (.Small base) center
  | .Great base, center, _, _ => .Dual (.Great base) center
  | .Stellated base, center, _, _ => .Dual (.Stellated base) center
/-- The element-wise dualization of a base list, embedding the
bases.into_iter().map(|base| base.dual(center.clone(), facet_count, rank))
of the multimodifier_dual macro. -/
def Name.dualList {R P : Type} [DecidableEq P] (K : NameKind R P) :
    List (Name R P) → P → Nat → Int → List (Name R P)
  | [], _, _, _ => []
  | b :: rest, center, fc, rank =>
      Name.dual K b center fc rank :: Name.dualList K rest center fc rank

end

/-- Name::from_src (name.rs lines 316-327), over a line given as a list of
characters. Modelled from the spec where it leaves src: the structured
decode (ron::from_str, an external crate) is an arbitrary decode function
passed as a parameter. The marker character is one byte, so the slice that
starts at the byte index of the second character is exactly the list tail. -/
def Name.from_src {R P : Type} (decode : List Char → Option (Name R P)) :
    List Char → Option (Name R P)
  | [] => none
  | c :: rest =>
      if c = '#' then
        match rest with
        | [] => none
        | _ => decode rest
      else none

/-- A sample epsilon predicate for witnesses at the concrete instantiation. -/
def nearE : Pt → Pt → Bool := fun a b => decide (a = b)

/-- Whether a name is the Dual variant. -/
def Name.isDualV {R P : Type} : Name R P → Bool
  | .Dual _ _ => true
  | _ => false

mutual
/-- Recursive validity: every node of the tree satisfies Name.is_valid. -/
def Name.allValid {R P : Type} (K : NameKind R P) : Name R P → Bool
  | .Pyramid b => Name.is_valid K (.Pyramid b) && Name.allValid K b
  | .Prism b => Name.is_valid K (.Prism b) && Name.allValid K b
  | .Tegum b => Name.is_valid K (.Tegum b) && Name.allValid K b
  | .Antiprism b => Name.is_valid K (.Antiprism b) && Name.allValid K b
  | .Antitegum b c => Name.is_valid K (.Antitegum b c) && Name.allValid K b
  | .Petrial b => Name.is_valid K (.Petrial b) && Name.allValid K b
  | .Dual b c => Name.is_valid K (.Dual b c) && Name.allValid K b
  | .Small b => Name.is_valid K (.Small b) && Name.allValid K b
  | .Great b => Name.is_valid K (.Great b) && Name.allValid K b
  | .Stellated b => Name.is_valid K (.Stellated b) && Name.allValid K b
  | .Multipyramid l => Name.is_valid K (.Multipyramid l) && Name.allValidList K l
  | .Multiprism l => Name.is_valid K (.Multiprism l) && Name.allValidList K l
  | .Multitegum l => Name.is_valid K (.Multitegum l) && Name.allValidList K l
  | .Multicomb l => Name.is_valid K (.Multicomb l) && Name.allValidList K l
  | n => Name.is_valid K n
/-- Recursive validity of every element of a list of names. -/
def Name.allValidList {R P : Type} (K : NameKind R P) : List (Name R P) → Bool
  | [] => true
  | b :: rest => Name.allValid K b && Name.allValidList K rest

end

mutual
/-- Whether no node of the tree is the Dual variant. -/
def Name.noDual {R P : Type} : Name R P → Bool
  | .Dual _ _ => false
  | .Pyramid b => Name.noDual b
  | .Prism b => Name.noDual b
  | .Tegum b => Name.noDual b
  | .Antiprism b => Name.noDual b
  | .Antitegum b _ => Name.noDual b
  | .Petrial b => Name.noDual b
  | .Small b => Name.noDual b
  | .Great b => Name.noDual b
  | .Stellated b => Name.noDual b
  | .Multipyramid l => Name.noDualList l
  | .Multiprism l => Name.noDualList l
  | .Multitegum l => Name.noDualList l
  | .Multicomb l => Name.noDualList l
  | _ => true
/-- Whether no element of the list contains a Dual node. -/
def Name.noDualList {R P : Type} : List (Name R P) → Bool
  | [] => true
  | b :: rest => Name.noDual b && Name.noDualList rest

end

/-- The two NameData laws that the Abs and Con instantiations actually
satisfy and that the validity-preservation arguments need: an abstract
capsule satisfies every predicate, and the concrete default regularity
(Regular::No) does not count as regular. -/
def NameKind.lawful {R P : Type} (K : NameKind R P) : Prop :=
  (K.isAbstract = true → ∀ (r : R) (f : Regular → Bool), K.rsatisfies r f = true) ∧
  (K.isAbstract = false → K.rsatisfies K.drDefault Regular.is_yes = false)

theorem Name.dualList_eq_map {R P : Type} [DecidableEq P] (K : NameKind R P)
    (l : List (Name R P)) (center : P) (fc : Nat) (rank : Int) :
    Name.dualList K l center fc rank = l.map (fun b => Name.dual K b center fc rank) := by
  induction l with
  | nil => rfl
  | cons b rest ih => simp [Name.dualList, ih]

theorem Name.dual_eq_Dual_inv {R P : Type} [DecidableEq P] (K : NameKind R P)
    (n b : Name R P) (center c' : P) (fc : Nat) (rank : Int)
    (hn : n.isDualV = false)
    (h : Name.dual K n center fc rank = .Dual b c') :
    b = n ∧ c' = center := by
  cases n
  case Dual => simp [Name.isDualV] at hn
  all_goals simp only [Name.dual, Name.orthodiagonal, Name.polygon] at h
  all_goals try (split at h)
  all_goals try (split at h)
  all_goals try (split at h)
  all_goals cases h
  all_goals exact ⟨rfl, rfl⟩

theorem Name.allValidList_iff {R P : Type} (K : NameKind R P) (l : List (Name R P)) :
    Name.allValidList K l = true ↔ ∀ b ∈ l, Name.allValid K b = true := by
  induction l with
  | nil => simp [Name.allValidList]
  | cons b rest ih => simp [Name.allValidList, ih]

theorem Name.noDualList_iff {R P : Type} (l : List (Name R P)) :
    Name.noDualList l = true ↔ ∀ b ∈ l, Name.noDual b = true := by
  induction l with
  | nil => simp [Name.noDualList]
  | cons b rest ih => simp [Name.noDualList, ih]

theorem Name.simplex_allValid {R P : Type} (K : NameKind R P) (r : R) (k : Int)
    (h : -1 ≤ k) : Name.allValid K (Name.simplex (P := P) r k) = true := by
  unfold Name.simplex
  split_ifs with h1 h2 h3 h4 <;> simp [Name.allValid, Name.is_valid] <;> omega

theorem Name.simplex_discr {R P : Type} (r : R) (k : Int) :
    (Name.simplex (P := P) r k).discr = 0 ∨ (Name.simplex (P := P) r k).discr = 1 ∨
    (Name.simplex (P := P) r k).discr = 2 ∨ (Name.simplex (P := P) r k).discr = 3 ∨
    (Name.simplex (P := P) r k).discr = 19 := by
  unfold Name.simplex
  split_ifs <;> simp [Name.discr]

theorem Name.hyperblock_allValid {R P : Type} (K : NameKind R P) (r : R) (k : Int)
    (h : -1 ≤ k) : Name.allValid K (Name.hyperblock K r k) = true := by
  unfold Name.hyperblock Name.rectangle
  split_ifs with h1 h2 h3 h4 <;> simp [Name.allValid, Name.is_valid] <;> omega

theorem Name.hyperblock_discr {R P : Type} (K : NameKind R P) (r : R) (k : Int) :
    (Name.hyperblock K r k).discr ≤ 5 ∨ (Name.hyperblock K r k).discr = 20 := by
  unfold Name.hyperblock Name.rectangle
  split_ifs <;> simp [Name.discr]

theorem Name.orthoplex_allValid {R P : Type} (K : NameKind R P) (r : R) (k : Int)
    (h : -1 ≤ k) : Name.allValid K (Name.orthoplex K r k) = true := by
  unfold Name.orthoplex Name.orthodiagonal
  split_ifs with h1 h2 h3 h4 <;> simp [Name.allValid, Name.is_valid] <;> omega

theorem Name.orthoplex_discr {R P : Type} (K : NameKind R P) (r : R) (k : Int) :
    (Name.orthoplex K r k).discr ≤ 6 ∨ (Name.orthoplex K r k).discr = 21 := by
  unfold Name.orthoplex Name.orthodiagonal
  split_ifs <;> simp [Name.discr]

theorem Name.polygon_allValid {R P : Type} (K : NameKind R P) (r : R) (n : Nat)
    (h : 2 ≤ n) : Name.allValid K (Name.polygon K r n) = true := by
  unfold Name.polygon
  split_ifs with h1 h2 h3
  · simp [Name.allValid, Name.is_valid]
  · simp [Name.allValid, Name.is_valid]
  · subst h2
    simp [Name.allValid, Name.is_valid, h3]
  · simp only [Name.allValid, Name.is_valid]
    split_ifs with h4 h5
    · rfl
    · simp only [decide_eq_true_eq]; omega
    · simp only [decide_eq_true_eq]; omega

theorem Name.mpyStep_inv {R P : Type} (K : NameKind R P) (acc : List (Name R P))
    (count : Int) (b : Name R P)
    (hb : Name.allValid K b = true)
    (hacc : ∀ x ∈ acc, Name.allValid K x = true ∧ x.discr ≠ 11)
    (hc : 0 ≤ count) :
    (∀ x ∈ (Name.mpyStep (acc, count) b).1,
        Name.allValid K x = true ∧ x.discr ≠ 11) ∧
    0 ≤ (Name.mpyStep (acc, count) b).2 := by
  cases b
  case Nullitope => exact ⟨hacc, hc⟩
  case Point => exact ⟨hacc, by show (0:Int) ≤ count + 1; omega⟩
  case Dyad => exact ⟨hacc, by show (0:Int) ≤ count + 2; omega⟩
  case Triangle r => exact ⟨hacc, by show (0:Int) ≤ count + 3; omega⟩
  case Simplex r rank =>
    have h3 : (3:Int) ≤ rank := by
      simpa [Name.allValid, Name.is_valid] using hb
    exact ⟨hacc, by show (0:Int) ≤ count + (rank + 1); omega⟩
  case Multipyramid extra =>
    have hv : Name.is_valid K (.Multipyramid extra) = true ∧
        Name.allValidList K extra = true := by
      simpa [Name.allValid, Bool.and_eq_true] using hb
    have hall : ∀ x ∈ extra, Name.allValid K x = true :=
      (Name.allValidList_iff K extra).1 hv.2
    have hd : ∀ x ∈ extra, x.discr ≠ 11 := by
      have := hv.1
      simp only [Name.is_valid, Bool.and_eq_true, decide_eq_true_eq,
        List.all_eq_true, bne_iff_ne, ne_eq] at this
      exact this.2
    refine ⟨?_, hc⟩
    intro x hx
    simp only [Name.mpyStep] at hx
    rcases List.mem_append.1 hx with h | h
    · exact hacc x h
    · exact ⟨hall x h, hd x h⟩
  all_goals
    refine ⟨?_, hc⟩
  all_goals
    intro x hx
    simp only [Name.mpyStep] at hx
    rcases List.mem_append.1 hx with h | h
    · exact hacc x h
    · obtain rfl := List.mem_singleton.1 h
      exact ⟨hb, by simp [Name.discr]⟩

theorem Name.mpy_fold_inv {R P : Type} (K : NameKind R P) (bases : List (Name R P)) :
    ∀ (acc : List (Name R P)) (count : Int),
    (∀ b ∈ bases, Name.allValid K b = true) →
    (∀ x ∈ acc, Name.allValid K x = true ∧ x.discr ≠ 11) →
    0 ≤ count →
    (∀ x ∈ (bases.foldl Name.mpyStep (acc, count)).1,
        Name.allValid K x = true ∧ x.discr ≠ 11) ∧
    0 ≤ (bases.foldl Name.mpyStep (acc, count)).2 := by
  induction bases with
  | nil => intro acc count _ hacc hc; exact ⟨hacc, hc⟩
  | cons b rest ih =>
    intro acc count hb hacc hc
    have hstep := Name.mpyStep_inv K acc count b (hb b (by simp)) hacc hc
    have hrec := ih (Name.mpyStep (acc, count) b).1 (Name.mpyStep (acc, count) b).2
      (fun x hx => hb x (by simp [hx])) hstep.1 hstep.2
    simpa [List.foldl_cons] using hrec

theorem Name.assemble_mpy_allValid {R P : Type} (K : NameKind R P)
    (q : List (Name R P))
    (hq : ∀ x ∈ q, Name.allValid K x = true ∧ x.discr ≠ 11) :
    Name.allValid K (Name.assemble .Nullitope .Multipyramid q) = true := by
  match q with
  | [] => rfl
  | [x] => exact (hq x (by simp)).1
  | x :: y :: rest =>
    show Name.allValid K (.Multipyramid (x :: y :: rest)) = true
    simp only [Name.allValid, Bool.and_eq_true]
    refine ⟨?_, ?_⟩
    · simp only [Name.is_valid, Bool.and_eq_true, decide_eq_true_eq, List.all_eq_true,
        bne_iff_ne, ne_eq]
      exact ⟨by simp, fun z hz => (hq z hz).2⟩
    · rw [Name.allValidList_iff]
      exact fun z hz => (hq z hz).1

theorem Name.multipyramid_allValid {R P : Type} (K : NameKind R P)
    (bases : List (Name R P)) (hb : ∀ b ∈ bases, Name.allValid K b = true) :
    Name.allValid K (Name.multipyramid K bases) = true := by
  have hinv := Name.mpy_fold_inv K bases [] 0 hb (by simp) le_rfl
  unfold Name.multipyramid
  dsimp only
  obtain ⟨⟨l, c⟩, hpq⟩ : ∃ pq, bases.foldl Name.mpyStep ([], 0) = pq := ⟨_, rfl⟩
  rw [hpq] at hinv ⊢
  obtain ⟨h1, h2⟩ := hinv
  dsimp only at h1 h2 ⊢
  have hq : ∀ x ∈ (if 2 ≤ c then l ++ [Name.simplex K.drDefault (c - 1)] else l),
      Name.allValid K x = true ∧ x.discr ≠ 11 := by
    split_ifs with hc2
    · intro x hx
      rcases List.mem_append.1 hx with h | h
      · exact h1 x h
      · obtain rfl := List.mem_singleton.1 h
        refine ⟨Name.simplex_allValid K _ _ (by omega), ?_⟩
        rcases Name.simplex_discr (P := P) K.drDefault (c - 1) with h | h | h | h | h <;>
          omega
    · exact h1
  by_cases hB : (2:Int) ≤ c
  · rw [if_pos hB] at hq ⊢
    split_ifs with hA
    · simp only [Name.allValid, Bool.and_eq_true]
      exact ⟨rfl, Name.assemble_mpy_allValid K _ hq⟩
    · exact Name.assemble_mpy_allValid K _ hq
  · rw [if_neg hB] at hq ⊢
    split_ifs with hA
    · simp only [Name.allValid, Bool.and_eq_true]
      exact ⟨rfl, Name.assemble_mpy_allValid K _ hq⟩
    · exact Name.assemble_mpy_allValid K _ hq

theorem Name.mprStep_inv {R P : Type} (K : NameKind R P) (acc : List (Name R P))
    (count : Int) (b : Name R P)
    (hb : Name.allValid K b = true)
    (hacc : ∀ x ∈ acc, Name.allValid K x = true ∧ x.discr ≠ 12)
    (hc : 0 ≤ count) :
    (∀ x ∈ (Name.mprStep (acc, count) b).1,
        Name.allValid K x = true ∧ x.discr ≠ 12) ∧
    0 ≤ (Name.mprStep (acc, count) b).2 := by
  cases b
  case Point => exact ⟨hacc, hc⟩
  case Dyad => exact ⟨hacc, by show (0:Int) ≤ count + 1; omega⟩
  case Square => exact ⟨hacc, by show (0:Int) ≤ count + 2; omega⟩
  case Rectangle => exact ⟨hacc, by show (0:Int) ≤ count + 2; omega⟩
  case Hyperblock r rank =>
    have h3 : (3:Int) ≤ rank := by
      simpa [Name.allValid, Name.is_valid] using hb
    exact ⟨hacc, by show (0:Int) ≤ count + rank; omega⟩
  case Multiprism extra =>
    have hv : Name.is_valid K (.Multiprism extra) = true ∧
        Name.allValidList K extra = true := by
      simpa [Name.allValid, Bool.and_eq_true] using hb
    have hall : ∀ x ∈ extra, Name.allValid K x = true :=
      (Name.allValidList_iff K extra).1 hv.2
    have hd : ∀ x ∈ extra, x.discr ≠ 12 := by
      have := hv.1
      simp only [Name.is_valid, Bool.and_eq_true, decide_eq_true_eq,
        List.all_eq_true, bne_iff_ne, ne_eq] at this
      exact this.2
    refine ⟨?_, hc⟩
    intro x hx
    simp only [Name.mprStep] at hx
    rcases List.mem_append.1 hx with h | h
    · exact hacc x h
    · exact ⟨hall x h, hd x h⟩
  all_goals
    refine ⟨?_, hc⟩
  all_goals
    intro x hx
    simp only [Name.mprStep] at hx
    rcases List.mem_append.1 hx with h | h
    · exact hacc x h
    · obtain rfl := List.mem_singleton.1 h
      exact ⟨hb, by simp [Name.discr]⟩

theorem Name.mpr_fold_inv {R P : Type} (K : NameKind R P) (bases : List (Name R P)) :
    ∀ (acc : List (Name R P)) (count : Int),
    (∀ b ∈ bases, Name.allValid K b = true) →
    (∀ x ∈ acc, Name.allValid K x = true ∧ x.discr ≠ 12) →
    0 ≤ count →
    (∀ x ∈ (bases.foldl Name.mprStep (acc, count)).1,
        Name.allValid K x = true ∧ x.discr ≠ 12) ∧
    0 ≤ (bases.foldl Name.mprStep (acc, count)).2 := by
  induction bases with
  | nil => intro acc count _ hacc hc; exact ⟨hacc, hc⟩
  | cons b rest ih =>
    intro acc count hb hacc hc
    have hstep := Name.mprStep_inv K acc count b (hb b (by simp)) hacc hc
    have hrec := ih (Name.mprStep (acc, count) b).1 (Name.mprStep (acc, count) b).2
      (fun x hx => hb x (by simp [hx])) hstep.1 hstep.2
    simpa [List.foldl_cons] using hrec

theorem Name.assemble_mpr_allValid {R P : Type} (K : NameKind R P)
    (q : List (Name R P))
    (hq : ∀ x ∈ q, Name.allValid K x = true ∧ x.discr ≠ 12) :
    Name.allValid K (Name.assemble .Point .Multiprism q) = true := by
  match q with
  | [] => rfl
  | [x] => exact (hq x (by simp)).1
  | x :: y :: rest =>
    show Name.allValid K (.Multiprism (x :: y :: rest)) = true
    simp only [Name.allValid, Bool.and_eq_true]
    refine ⟨?_, ?_⟩
    · simp only [Name.is_valid, Bool.and_eq_true, decide_eq_true_eq, List.all_eq_true,
        bne_iff_ne, ne_eq]
      exact ⟨by simp, fun z hz => (hq z hz).2⟩
    · rw [Name.allValidList_iff]
      exact fun z hz => (hq z hz).1

theorem Name.multiprism_allValid {R P : Type} (K : NameKind R P)
    (bases : List (Name R P)) (hb : ∀ b ∈ bases, Name.allValid K b = true) :
    Name.allValid K (Name.multiprism K bases) = true := by
  unfold Name.multiprism
  split_ifs with hnull
  · rfl
  have hinv := Name.mpr_fold_inv K bases [] 0 hb (by simp) le_rfl
  dsimp only
  obtain ⟨⟨l, c⟩, hpq⟩ : ∃ pq, bases.foldl Name.mprStep ([], 0) = pq := ⟨_, rfl⟩
  rw [hpq] at hinv ⊢
  obtain ⟨h1, h2⟩ := hinv
  dsimp only at h1 h2 ⊢
  have hq : ∀ x ∈ (if 2 ≤ c then l ++ [Name.hyperblock K K.drDefault c] else l),
      Name.allValid K x = true ∧ x.discr ≠ 12 := by
    split_ifs with hc2
    · intro x hx
      rcases List.mem_append.1 hx with h | h
      · exact h1 x h
      · obtain rfl := List.mem_singleton.1 h
        refine ⟨Name.hyperblock_allValid K _ _ (by omega), ?_⟩
        rcases Name.hyperblock_discr K K.drDefault c with h | h <;> omega
    · exact h1
  by_cases hB : (2:Int) ≤ c
  · rw [if_pos hB] at hq ⊢
    split_ifs with hA
    · simp only [Name.allValid, Bool.and_eq_true]
      exact ⟨rfl, Name.assemble_mpr_allValid K _ hq⟩
    · exact Name.assemble_mpr_allValid K _ hq
  · rw [if_neg hB] at hq ⊢
    split_ifs with hA
    · simp only [Name.allValid, Bool.and_eq_true]
      exact ⟨rfl, Name.assemble_mpr_allValid K _ hq⟩
    · exact Name.assemble_mpr_allValid K _ hq

theorem Name.mtgStep_inv {R P : Type} (K : NameKind R P) (acc : List (Name R P))
    (count : Int) (b : Name R P)
    (hb : Name.allValid K b = true)
    (hacc : ∀ x ∈ acc, Name.allValid K x = true ∧ x.discr ≠ 13)
    (hc : 0 ≤ count) :
    (∀ x ∈ (Name.mtgStep (acc, count) b).1,
        Name.allValid K x = true ∧ x.discr ≠ 13) ∧
    0 ≤ (Name.mtgStep (acc, count) b).2 := by
  cases b
  case Point => exact ⟨hacc, hc⟩
  case Dyad => exact ⟨hacc, by show (0:Int) ≤ count + 1; omega⟩
  case Square => exact ⟨hacc, by show (0:Int) ≤ count + 2; omega⟩
  case Orthodiagonal => exact ⟨hacc, by show (0:Int) ≤ count + 2; omega⟩
  case Orthoplex r rank =>
    have h3 : (3:Int) ≤ rank := by
      simpa [Name.allValid, Name.is_valid] using hb
    exact ⟨hacc, by show (0:Int) ≤ count + rank; omega⟩
  case Multitegum extra =>
    have hv : Name.is_valid K (.Multitegum extra) = true ∧
        Name.allValidList K extra = true := by
      simpa [Name.allValid, Bool.and_eq_true] using hb
    have hall : ∀ x ∈ extra, Name.allValid K x = true :=
      (Name.allValidList_iff K extra).1 hv.2
    have hd : ∀ x ∈ extra, x.discr ≠ 13 := by
      have := hv.1
      simp only [Name.is_valid, Bool.and_eq_true, decide_eq_true_eq,
        List.all_eq_true, bne_iff_ne, ne_eq] at this
      exact this.2
    refine ⟨?_, hc⟩
    intro x hx
    simp only [Name.mtgStep] at hx
    rcases List.mem_append.1 hx with h | h
    · exact hacc x h
    · exact ⟨hall x h, hd x h⟩
  all_goals
    refine ⟨?_, hc⟩
  all_goals
    intro x hx
    simp only [Name.mtgStep] at hx
    rcases List.mem_append.1 hx with h | h
    · exact hacc x h
    · obtain rfl := List.mem_singleton.1 h
      exact ⟨hb, by simp [Name.discr]⟩

theorem Name.mtg_fold_inv {R P : Type} (K : NameKind R P) (bases : List (Name R P)) :
    ∀ (acc : List (Name R P)) (count : Int),
    (∀ b ∈ bases, Name.allValid K b = true) →
    (∀ x ∈ acc, Name.allValid K x = true ∧ x.discr ≠ 13) →
    0 ≤ count →
    (∀ x ∈ (bases.foldl Name.mtgStep (acc, count)).1,
        Name.allValid K x = true ∧ x.discr ≠ 13) ∧
    0 ≤ (bases.foldl Name.mtgStep (acc, count)).2 := by
  induction bases with
  | nil => intro acc count _ hacc hc; exact ⟨hacc, hc⟩
  | cons b rest ih =>
    intro acc count hb hacc hc
    have hstep := Name.mtgStep_inv K acc count b (hb b (by simp)) hacc hc
    have hrec := ih (Name.mtgStep (acc, count) b).1 (Name.mtgStep (acc, count) b).2
      (fun x hx => hb x (by simp [hx])) hstep.1 hstep.2
    simpa [List.foldl_cons] using hrec

theorem Name.assemble_mtg_allValid {R P : Type} (K : NameKind R P)
    (q : List (Name R P))
    (hq : ∀ x ∈ q, Name.allValid K x = true ∧ x.discr ≠ 13) :
    Name.allValid K (Name.assemble .Point .Multitegum q) = true := by
  match q with
  | [] => rfl
  | [x] => exact (hq x (by simp)).1
  | x :: y :: rest =>
    show Name.allValid K (.Multitegum (x :: y :: rest)) = true
    simp only [Name.allValid, Bool.and_eq_true]
    refine ⟨?_, ?_⟩
    · simp only [Name.is_valid, Bool.and_eq_true, decide_eq_true_eq, List.all_eq_true,
        bne_iff_ne, ne_eq]
      exact ⟨by simp, fun z hz => (hq z hz).2⟩
    · rw [Name.allValidList_iff]
      exact fun z hz => (hq z hz).1

theorem Name.multitegum_allValid {R P : Type} (K : NameKind R P)
    (bases : List (Name R P)) (hb : ∀ b ∈ bases, Name.allValid K b = true) :
    Name.allValid K (Name.multitegum K bases) = true := by
  unfold Name.multitegum
  split_ifs with hnull
  · rfl
  have hinv := Name.mtg_fold_inv K bases [] 0 hb (by simp) le_rfl
  dsimp only
  obtain ⟨⟨l, c⟩, hpq⟩ : ∃ pq, bases.foldl Name.mtgStep ([], 0) = pq := ⟨_, rfl⟩
  rw [hpq] at hinv ⊢
  obtain ⟨h1, h2⟩ := hinv
  dsimp only at h1 h2 ⊢
  have hq : ∀ x ∈ (if 2 ≤ c then l ++ [Name.orthoplex K K.drDefault c] else l),
      Name.allValid K x = true ∧ x.discr ≠ 13 := by
    split_ifs with hc2
    · intro x hx
      rcases List.mem_append.1 hx with h | h
      · exact h1 x h
      · obtain rfl := List.mem_singleton.1 h
        refine ⟨Name.orthoplex_allValid K _ _ (by omega), ?_⟩
        rcases Name.orthoplex_discr K K.drDefault c with h | h <;> omega
    · exact h1
  by_cases hB : (2:Int) ≤ c
  · rw [if_pos hB] at hq ⊢
    split_ifs with hA
    · simp only [Name.allValid, Bool.and_eq_true]
      exact ⟨rfl, Name.assemble_mtg_allValid K _ hq⟩
    · exact Name.assemble_mtg_allValid K _ hq
  · rw [if_neg hB] at hq ⊢
    split_ifs with hA
    · simp only [Name.allValid, Bool.and_eq_true]
      exact ⟨rfl, Name.assemble_mtg_allValid K _ hq⟩
    · exact Name.assemble_mtg_allValid K _ hq

theorem Name.mcbStep_inv {R P : Type} (K : NameKind R P) (acc : List (Name R P))
    (b : Name R P)
    (hb : Name.allValid K b = true)
    (hacc : ∀ x ∈ acc, Name.allValid K x = true ∧ x.discr ≠ 14) :
    ∀ x ∈ Name.mcbStep acc b, Name.allValid K x = true ∧ x.discr ≠ 14 := by
  cases b
  case Multicomb extra =>
    have hv : Name.is_valid K (.Multicomb extra) = true ∧
        Name.allValidList K extra = true := by
      simpa [Name.allValid, Bool.and_eq_true] using hb
    have hall : ∀ x ∈ extra, Name.allValid K x = true :=
      (Name.allValidList_iff K extra).1 hv.2
    have hd : ∀ x ∈ extra, x.discr ≠ 14 := by
      have := hv.1
      simp only [Name.is_valid, Bool.and_eq_true, decide_eq_true_eq,
        List.all_eq_true, bne_iff_ne, ne_eq] at this
      exact this.2
    intro x hx
    simp only [Name.mcbStep] at hx
    rcases List.mem_append.1 hx with h | h
    · exact hacc x h
    · exact ⟨hall x h, hd x h⟩
  all_goals
    intro x hx
    simp only [Name.mcbStep] at hx
    rcases List.mem_append.1 hx with h | h
    · exact hacc x h
    · obtain rfl := List.mem_singleton.1 h
      exact ⟨hb, by simp [Name.discr]⟩

theorem Name.mcb_fold_inv {R P : Type} (K : NameKind R P) (bases : List (Name R P)) :
    ∀ (acc : List (Name R P)),
    (∀ b ∈ bases, Name.allValid K b = true) →
    (∀ x ∈ acc, Name.allValid K x = true ∧ x.discr ≠ 14) →
    ∀ x ∈ bases.foldl Name.mcbStep acc, Name.allValid K x = true ∧ x.discr ≠ 14 := by
  induction bases with
  | nil => intro acc _ hacc; exact hacc
  | cons b rest ih =>
    intro acc hb hacc
    have hstep := Name.mcbStep_inv K acc b (hb b (by simp)) hacc
    have hrec := ih (Name.mcbStep acc b) (fun x hx => hb x (by simp [hx])) hstep
    simpa [List.foldl_cons] using hrec

theorem Name.assemble_mcb_allValid {R P : Type} (K : NameKind R P)
    (q : List (Name R P))
    (hq : ∀ x ∈ q, Name.allValid K x = true ∧ x.discr ≠ 14) :
    Name.allValid K (Name.assemble .Point .Multicomb q) = true := by
  match q with
  | [] => rfl
  | [x] => exact (hq x (by simp)).1
  | x :: y :: rest =>
    show Name.allValid K (.Multicomb (x :: y :: rest)) = true
    simp only [Name.allValid, Bool.and_eq_true]
    refine ⟨?_, ?_⟩
    · simp only [Name.is_valid, Bool.and_eq_true, decide_eq_true_eq, List.all_eq_true,
        bne_iff_ne, ne_eq]
      exact ⟨by simp, fun z hz => (hq z hz).2⟩
    · rw [Name.allValidList_iff]
      exact fun z hz => (hq z hz).1

theorem Name.multicomb_allValid {R P : Type} (K : NameKind R P)
    (bases : List (Name R P)) (hb : ∀ b ∈ bases, Name.allValid K b = true) :
    Name.allValid K (Name.multicomb (P := P) bases) = true := by
  unfold Name.multicomb
  exact Name.assemble_mcb_allValid K _ (Name.mcb_fold_inv K bases [] hb (by simp))

theorem Name.rectangle_allValid {R P : Type} (K : NameKind R P) :
    Name.allValid K (Name.rectangle K) = true := by
  unfold Name.rectangle
  split_ifs <;> rfl

theorem Name.orthodiagonal_allValid {R P : Type} (K : NameKind R P) :
    Name.allValid K (Name.orthodiagonal K) = true := by
  unfold Name.orthodiagonal
  split_ifs <;> rfl

theorem Name.pyramid_allValid {R P : Type} (K : NameKind R P) (n : Name R P)
    (h : Name.allValid K n = true) :
    Name.allValid K (Name.pyramid K n) = true := by
  cases n
  case Triangle r =>
    by_cases hc : K.contains r .no
    · simp [Name.pyramid, hc, Name.allValid, Name.is_valid]
    · simp [Name.pyramid, hc, Name.allValid, Name.is_valid]
  case Simplex r rank =>
    have h3 : (3:Int) ≤ rank := by simpa [Name.allValid, Name.is_valid] using h
    by_cases hc : K.contains r .no
    · simp only [Name.pyramid, hc, if_true]
      simp [Name.allValid, Name.is_valid]
      omega
    · simp [Name.pyramid, hc, Name.allValid, Name.is_valid, h3]
  case Pyramid base =>
    have hbase : Name.allValid K base = true := by
      simpa [Name.allValid, Name.is_valid] using h
    refine Name.multipyramid_allValid K _ ?_
    intro b hb
    simp only [List.mem_cons, List.not_mem_nil, or_false] at hb
    rcases hb with rfl | rfl
    · rfl
    · exact hbase
  case Multipyramid bases =>
    have hch : ∀ b ∈ bases, Name.allValid K b = true := by
      have hx := h
      simp only [Name.allValid, Bool.and_eq_true] at hx
      exact (Name.allValidList_iff K bases).1 hx.2
    refine Name.multipyramid_allValid K _ ?_
    intro b hb
    rcases List.mem_append.1 hb with h' | h'
    · exact hch b h'
    · obtain rfl := List.mem_singleton.1 h'
      rfl
  all_goals try rfl
  all_goals
    simp only [Name.pyramid]
  all_goals
    simp only [Name.allValid, Bool.and_eq_true]
  all_goals refine ⟨rfl, ?_⟩
  all_goals simpa only [Name.allValid, Bool.and_eq_true] using h

theorem Name.prism_allValid {R P : Type} (K : NameKind R P) (n : Name R P)
    (h : Name.allValid K n = true) :
    Name.allValid K (Name.prism K n) = true := by
  cases n
  case Dyad => exact Name.rectangle_allValid K
  case Hyperblock r rank =>
    have h3 : (3:Int) ≤ rank := by simpa [Name.allValid, Name.is_valid] using h
    by_cases hc : K.contains r .no
    · simp only [Name.prism, hc, if_true]
      simp [Name.allValid, Name.is_valid]
      omega
    · simp [Name.prism, hc, Name.allValid, Name.is_valid, h3]
  case Prism base =>
    have hbase : Name.allValid K base = true := by
      simpa [Name.allValid, Name.is_valid] using h
    refine Name.multiprism_allValid K _ ?_
    intro b hb
    simp only [List.mem_cons, List.not_mem_nil, or_false] at hb
    rcases hb with rfl | rfl
    · exact Name.rectangle_allValid K
    · exact hbase
  case Multiprism bases =>
    have hch : ∀ b ∈ bases, Name.allValid K b = true := by
      have hx := h
      simp only [Name.allValid, Bool.and_eq_true] at hx
      exact (Name.allValidList_iff K bases).1 hx.2
    refine Name.multiprism_allValid K _ ?_
    intro b hb
    rcases List.mem_append.1 hb with h' | h'
    · exact hch b h'
    · obtain rfl := List.mem_singleton.1 h'
      rfl
  all_goals try rfl
  all_goals
    simp only [Name.prism]
  all_goals
    simp only [Name.allValid, Bool.and_eq_true]
  all_goals refine ⟨rfl, ?_⟩
  all_goals simpa only [Name.allValid, Bool.and_eq_true] using h

theorem Name.tegum_allValid {R P : Type} (K : NameKind R P) (n : Name R P)
    (h : Name.allValid K n = true) :
    Name.allValid K (Name.tegum K n) = true := by
  cases n
  case Dyad => exact Name.orthodiagonal_allValid K
  case Orthoplex r rank =>
    have h3 : (3:Int) ≤ rank := by simpa [Name.allValid, Name.is_valid] using h
    by_cases hc : K.contains r .no
    · simp only [Name.tegum, hc, if_true]
      simp [Name.allValid, Name.is_valid]
      omega
    · simp [Name.tegum, hc, Name.allValid, Name.is_valid, h3]
  case Tegum base =>
    have hbase : Name.allValid K base = true := by
      simpa [Name.allValid, Name.is_valid] using h
    refine Name.multitegum_allValid K _ ?_
    intro b hb
    simp only [List.mem_cons, List.not_mem_nil, or_false] at hb
    rcases hb with rfl | rfl
    · exact Name.orthodiagonal_allValid K
    · exact hbase
  case Multitegum bases =>
    have hch : ∀ b ∈ bases, Name.allValid K b = true := by
      have hx := h
      simp only [Name.allValid, Bool.and_eq_true] at hx
      exact (Name.allValidList_iff K bases).1 hx.2
    refine Name.multitegum_allValid K _ ?_
    intro b hb
    rcases List.mem_append.1 hb with h' | h'
    · exact hch b h'
    · obtain rfl := List.mem_singleton.1 h'
      rfl
  all_goals try rfl
  all_goals
    simp only [Name.tegum]
  all_goals
    simp only [Name.allValid, Bool.and_eq_true]
  all_goals refine ⟨rfl, ?_⟩
  all_goals simpa only [Name.allValid, Bool.and_eq_true] using h

theorem Name.antiprism_allValid {R P : Type} (K : NameKind R P) (n : Name R P)
    (h : Name.allValid K n = true) :
    Name.allValid K (Name.antiprism K n) = true := by
  cases n
  case Simplex r rank =>
    have h3 : (3:Int) ≤ rank := by simpa [Name.allValid, Name.is_valid] using h
    simp [Name.antiprism, Name.allValid, Name.is_valid]
    omega
  all_goals try rfl
  all_goals
    simp only [Name.antiprism]
  all_goals
    simp only [Name.allValid, Bool.and_eq_true]
  all_goals refine ⟨rfl, ?_⟩
  all_goals simpa only [Name.allValid, Bool.and_eq_true] using h

theorem Name.petrial_allValid {R P : Type} (K : NameKind R P) (n : Name R P)
    (h : Name.allValid K n = true) :
    Name.allValid K (Name.petrial n) = true := by
  cases n
  case Petrial base =>
    simpa [Name.allValid, Name.is_valid, Name.petrial] using h
  all_goals try rfl
  all_goals
    simp only [Name.petrial]
  all_goals
    simp only [Name.allValid, Bool.and_eq_true]
  all_goals refine ⟨rfl, ?_⟩
  all_goals simpa only [Name.allValid, Bool.and_eq_true] using h

theorem Abs_lawful : Abs.lawful :=
  ⟨fun _ _ _ => rfl, fun h => Bool.noConfusion h⟩

theorem ConK_lawful (near : Pt → Pt → Bool) : (ConK near).lawful :=
  ⟨fun h => Bool.noConfusion h, fun _ => rfl⟩

theorem Name.noDual_not_DualV {R P : Type} (b : Name R P)
    (h : Name.noDual b = true) : b.isDualV = false := by
  cases b <;> first
    | rfl
    | simp [Name.noDual] at h

theorem Name.dual_discr_multi {R P : Type} [DecidableEq P] (K : NameKind R P)
    (b : Name R P) (center : P) (fc : Nat) (rank : Int) (hb : b.isDualV = false) :
    ((Name.dual K b center fc rank).discr = 11 → b.discr = 11) ∧
    ((Name.dual K b center fc rank).discr = 12 → b.discr = 13) ∧
    ((Name.dual K b center fc rank).discr = 13 → b.discr = 12) ∧
    ((Name.dual K b center fc rank).discr = 14 → b.discr = 14) := by
  cases b
  case Dual => simp [Name.isDualV] at hb
  all_goals
    simp only [Name.dual, Name.orthodiagonal, Name.polygon]
  all_goals
    try (split_ifs <;> simp [Name.discr])
  all_goals simp [Name.discr]

theorem Name.dual_allValid {R P : Type} [DecidableEq P] (K : NameKind R P)
    (hK : K.lawful) :
    ∀ (N : Nat) (n : Name R P) (center : P) (fc : Nat) (rank : Int),
      sizeOf n ≤ N →
      Name.allValid K n = true → Name.noDual n = true →
      Name.allValid K (Name.dual K n center fc rank) = true := by
  intro N
  induction N with
  | zero =>
    intro n center fc rank hs
    exfalso
    cases n <;> simp at hs <;> omega
  | succ N ih =>
    intro n center fc rank hs hv hnd
    cases n
    case Nullitope => exact hv
    case Point => exact hv
    case Dyad => exact hv
    case Triangle r =>
      simp only [Name.dual]
      split_ifs <;> rfl
    case Square => exact Name.orthodiagonal_allValid K
    case Rectangle => exact Name.orthodiagonal_allValid K
    case Orthodiagonal => exact Name.polygon_allValid K _ 4 (by omega)
    case Polygon r n =>
      simp only [Name.dual]
      split_ifs with hcond
      · exact hv
      · cases hab : K.isAbstract with
        | true => exact absurd (hK.1 hab r (regularPred K center)) hcond
        | false =>
          have hdef : K.rsatisfies K.drDefault Regular.is_yes = false := hK.2 hab
          simp only [Name.allValid, Name.is_valid, hdef, Bool.false_eq_true,
            if_false] at hv ⊢
          by_cases h2 : n = 2
          · simp [h2]
          · rw [if_neg h2] at hv ⊢
            split_ifs at hv with h5 <;>
              simp only [decide_eq_true_eq] at hv ⊢ <;> omega
    case Simplex r rank0 =>
      have h3 : (3:Int) ≤ rank0 := by simpa [Name.allValid, Name.is_valid] using hv
      simp only [Name.dual]
      split_ifs <;> simpa [Name.allValid, Name.is_valid] using h3
    case Hyperblock r rank0 =>
      have h3 : (3:Int) ≤ rank0 := by simpa [Name.allValid, Name.is_valid] using hv
      simp only [Name.dual]
      split_ifs <;> simpa [Name.allValid, Name.is_valid] using h3
    case Orthoplex r rank0 =>
      have h3 : (3:Int) ≤ rank0 := by simpa [Name.allValid, Name.is_valid] using hv
      simp only [Name.dual]
      split_ifs <;> simpa [Name.allValid, Name.is_valid] using h3
    case Dual base c0 => simp [Name.noDual] at hnd
    case Pyramid base =>
      have hsb : sizeOf base ≤ N := by simp at hs; omega
      have hvb : Name.allValid K base = true := by
        simpa [Name.allValid, Name.is_valid] using hv
      have hndb : Name.noDual base = true := by simpa [Name.noDual] using hnd
      simp only [Name.dual]
      split_ifs with hab
      · simp only [Name.allValid, Bool.and_eq_true]
        exact ⟨rfl, ih base center fc rank hsb hvb hndb⟩
      · simp only [Name.allValid, Bool.and_eq_true]
        exact ⟨rfl, by simpa [Name.allValid, Bool.and_eq_true] using hv⟩
    case Prism base =>
      have hsb : sizeOf base ≤ N := by simp at hs; omega
      have hvb : Name.allValid K base = true := by
        simpa [Name.allValid, Name.is_valid] using hv
      have hndb : Name.noDual base = true := by simpa [Name.noDual] using hnd
      simp only [Name.dual]
      split_ifs with hab
      · simp only [Name.allValid, Bool.and_eq_true]
        exact ⟨rfl, ih base center fc rank hsb hvb hndb⟩
      · simp only [Name.allValid, Bool.and_eq_true]
        exact ⟨rfl, by simpa [Name.allValid, Bool.and_eq_true] using hv⟩
    case Tegum base =>
      have hsb : sizeOf base ≤ N := by simp at hs; omega
      have hvb : Name.allValid K base = true := by
        simpa [Name.allValid, Name.is_valid] using hv
      have hndb : Name.noDual base = true := by simpa [Name.noDual] using hnd
      simp only [Name.dual]
      split_ifs with hab
      · simp only [Name.allValid, Bool.and_eq_true]
        exact ⟨rfl, ih base center fc rank hsb hvb hndb⟩
      · simp only [Name.allValid, Bool.and_eq_true]
        exact ⟨rfl, by simpa [Name.allValid, Bool.and_eq_true] using hv⟩
    case Antiprism base =>
      have hvb : Name.allValid K base = true := by
        simpa [Name.allValid, Name.is_valid] using hv
      simp only [Name.dual, Name.allValid, Bool.and_eq_true]
      exact ⟨rfl, hvb⟩
    case Antitegum base c0 =>
      have hvb : Name.allValid K base = true := by
        simpa [Name.allValid, Name.is_valid] using hv
      simp only [Name.dual]
      split_ifs with hc
      · simp only [Name.allValid, Bool.and_eq_true]
        exact ⟨rfl, hvb⟩
      · simp only [Name.allValid, Bool.and_eq_true]
        exact ⟨rfl, rfl, hvb⟩
    case Petrial base =>
      simp only [Name.dual, Name.allValid, Bool.and_eq_true]
      exact ⟨rfl, by simpa [Name.allValid, Bool.and_eq_true] using hv⟩
    case Generic n0 r0 =>
      simp only [Name.dual, Name.allValid, Bool.and_eq_true]
      exact ⟨rfl, hv⟩
    case Small base =>
      simp only [Name.dual, Name.allValid, Bool.and_eq_true]
      exact ⟨rfl, by simpa [Name.allValid, Bool.and_eq_true] using hv⟩
    case Great base =>
      simp only [Name.dual, Name.allValid, Bool.and_eq_true]
      exact ⟨rfl, by simpa [Name.allValid, Bool.and_eq_true] using hv⟩
    case Stellated base =>
      simp only [Name.dual, Name.allValid, Bool.and_eq_true]
      exact ⟨rfl, by simpa [Name.allValid, Bool.and_eq_true] using hv⟩
    case Multipyramid bases =>
      have hsb : ∀ b ∈ bases, sizeOf b ≤ N := by
        intro b hmem
        have hlt := List.sizeOf_lt_of_mem hmem
        simp at hs
        omega
      have hvparts : Name.is_valid K (.Multipyramid bases) = true ∧
          Name.allValidList K bases = true := by
        simpa [Name.allValid, Bool.and_eq_true] using hv
      have hvb : ∀ b ∈ bases, Name.allValid K b = true :=
        (Name.allValidList_iff K bases).1 hvparts.2
      have hndb : ∀ b ∈ bases, Name.noDual b = true := by
        have := hnd
        simp only [Name.noDual] at this
        exact (Name.noDualList_iff bases).1 this
      have hlen : 2 ≤ bases.length ∧ ∀ x ∈ bases, x.discr ≠ 11 := by
        have := hvparts.1
        simpa [Name.is_valid, Bool.and_eq_true, List.all_eq_true] using this
      simp only [Name.dual]
      split_ifs with hab
      · rw [Name.dualList_eq_map]
        simp only [Name.allValid, Bool.and_eq_true]
        constructor
        · simp only [Name.is_valid, Bool.and_eq_true, decide_eq_true_eq,
            List.all_eq_true, bne_iff_ne, ne_eq, List.length_map]
          refine ⟨hlen.1, ?_⟩
          intro x hx
          rcases List.mem_map.1 hx with ⟨b, hbmem, rfl⟩
          intro hd11
          exact hlen.2 b hbmem
            ((Name.dual_discr_multi K b center fc rank
              (Name.noDual_not_DualV b (hndb b hbmem))).1 hd11)
        · rw [Name.allValidList_iff]
          intro x hx
          rcases List.mem_map.1 hx with ⟨b, hbmem, rfl⟩
          exact ih b center fc rank (hsb b hbmem) (hvb b hbmem) (hndb b hbmem)
      · simp only [Name.allValid, Bool.and_eq_true]
        exact ⟨rfl, hvparts.1, hvparts.2⟩
    case Multiprism bases =>
      have hsb : ∀ b ∈ bases, sizeOf b ≤ N := by
        intro b hmem
        have hlt := List.sizeOf_lt_of_mem hmem
        simp at hs
        omega
      have hvparts : Name.is_valid K (.Multiprism bases) = true ∧
          Name.allValidList K bases = true := by
        simpa [Name.allValid, Bool.and_eq_true] using hv
      have hvb : ∀ b ∈ bases, Name.allValid K b = true :=
        (Name.allValidList_iff K bases).1 hvparts.2
      have hndb : ∀ b ∈ bases, Name.noDual b = true := by
        have := hnd
        simp only [Name.noDual] at this
        exact (Name.noDualList_iff bases).1 this
      have hlen : 2 ≤ bases.length ∧ ∀ x ∈ bases, x.discr ≠ 12 := by
        have := hvparts.1
        simpa [Name.is_valid, Bool.and_eq_true, List.all_eq_true] using this
      simp only [Name.dual]
      split_ifs with hab
      · rw [Name.dualList_eq_map]
        simp only [Name.allValid, Bool.and_eq_true]
        constructor
        · simp only [Name.is_valid, Bool.and_eq_true, decide_eq_true_eq,
            List.all_eq_true, bne_iff_ne, ne_eq, List.length_map]
          refine ⟨hlen.1, ?_⟩
          intro x hx
          rcases List.mem_map.1 hx with ⟨b, hbmem, rfl⟩
          intro hd13
          exact hlen.2 b hbmem
            ((Name.dual_discr_multi K b center fc rank
              (Name.noDual_not_DualV b (hndb b hbmem))).2.2.1 hd13)
        · rw [Name.allValidList_iff]
          intro x hx
          rcases List.mem_map.1 hx with ⟨b, hbmem, rfl⟩
          exact ih b center fc rank (hsb b hbmem) (hvb b hbmem) (hndb b hbmem)
      · simp only [Name.allValid, Bool.and_eq_true]
        exact ⟨rfl, hvparts.1, hvparts.2⟩
    case Multitegum bases =>
      have hsb : ∀ b ∈ bases, sizeOf b ≤ N := by
        intro b hmem
        have hlt := List.sizeOf_lt_of_mem hmem
        simp at hs
        omega
      have hvparts : Name.is_valid K (.Multitegum bases) = true ∧
          Name.allValidList K bases = true := by
        simpa [Name.allValid, Bool.and_eq_true] using hv
      have hvb : ∀ b ∈ bases, Name.allValid K b = true :=
        (Name.allValidList_iff K bases).1 hvparts.2
      have hndb : ∀ b ∈ bases, Name.noDual b = true := by
        have := hnd
        simp only [Name.noDual] at this
        exact (Name.noDualList_iff bases).1 this
      have hlen : 2 ≤ bases.length ∧ ∀ x ∈ bases, x.discr ≠ 13 := by
        have := hvparts.1
        simpa [Name.is_valid, Bool.and_eq_true, List.all_eq_true] using this
      simp only [Name.dual]
      split_ifs with hab
      · rw [Name.dualList_eq_map]
        simp only [Name.allValid, Bool.and_eq_true]
        constructor
        · simp only [Name.is_valid, Bool.and_eq_true, decide_eq_true_eq,
            List.all_eq_true, bne_iff_ne, ne_eq, List.length_map]
          refine ⟨hlen.1, ?_⟩
          intro x hx
          rcases List.mem_map.1 hx with ⟨b, hbmem, rfl⟩
          intro hd12
          exact hlen.2 b hbmem
            ((Name.dual_discr_multi K b center fc rank
              (Name.noDual_not_DualV b (hndb b hbmem))).2.1 hd12)
        · rw [Name.allValidList_iff]
          intro x hx
          rcases List.mem_map.1 hx with ⟨b, hbmem, rfl⟩
          exact ih b center fc rank (hsb b hbmem) (hvb b hbmem) (hndb b hbmem)
      · simp only [Name.allValid, Bool.and_eq_true]
        exact ⟨rfl, hvparts.1, hvparts.2⟩
    case Multicomb bases =>
      have hsb : ∀ b ∈ bases, sizeOf b ≤ N := by
        intro b hmem
        have hlt := List.sizeOf_lt_of_mem hmem
        simp at hs
        omega
      have hvparts : Name.is_valid K (.Multicomb bases) = true ∧
          Name.allValidList K bases = true := by
        simpa [Name.allValid, Bool.and_eq_true] using hv
      have hvb : ∀ b ∈ bases, Name.allValid K b = true :=
        (Name.allValidList_iff K bases).1 hvparts.2
      have hndb : ∀ b ∈ bases, Name.noDual b = true := by
        have := hnd
        simp only [Name.noDual] at this
        exact (Name.noDualList_iff bases).1 this
      have hlen : 2 ≤ bases.length ∧ ∀ x ∈ bases, x.discr ≠ 14 := by
        have := hvparts.1
        simpa [Name.is_valid, Bool.and_eq_true, List.all_eq_true] using this
      simp only [Name.dual]
      split_ifs with hab
      · rw [Name.dualList_eq_map]
        simp only [Name.allValid, Bool.and_eq_true]
        constructor
        · simp only [Name.is_valid, Bool.and_eq_true, decide_eq_true_eq,
            List.all_eq_true, bne_iff_ne, ne_eq, List.length_map]
          refine ⟨hlen.1, ?_⟩
          intro x hx
          rcases List.mem_map.1 hx with ⟨b, hbmem, rfl⟩
          intro hd14
          exact hlen.2 b hbmem
            ((Name.dual_discr_multi K b center fc rank
              (Name.noDual_not_DualV b (hndb b hbmem))).2.2.2 hd14)
        · rw [Name.allValidList_iff]
          intro x hx
          rcases List.mem_map.1 hx with ⟨b, hbmem, rfl⟩
          exact ih b center fc rank (hsb b hbmem) (hvb b hbmem) (hndb b hbmem)
      · simp only [Name.allValid, Bool.and_eq_true]
        exact ⟨rfl, hvparts.1, hvparts.2⟩

theorem Name.generic_allValid {R P : Type} (K : NameKind R P) (n : Nat) (rank : Int)
    (h2 : 2 ≤ n) (h3 : 3 ≤ rank) (h20 : rank ≤ 20) :
    Name.allValid K (Name.generic K n rank) = true := by
  unfold Name.generic
  rw [if_neg (by omega), if_neg (by omega), if_neg (by omega), if_neg (by omega)]
  simp only [Name.allValid, Name.is_valid, Bool.and_eq_true, decide_eq_true_eq]
  omega

/-- C1: counterexample to the claim as stated. The merger applied to the one-element list holding Point yields Pyramid applied to Nullitope, which is a different name than Point: the single absorbed unit pyramid wraps the empty merge result in a raw Pyramid node instead of collapsing to the Point literal. -/
theorem multipyramid_single_point_counterexample :
    Name.multipyramid Abs [.Point] = .Pyramid .Nullitope ∧
    Name.multipyramid Abs [.Point] ≠ .Point :=
  ⟨rfl, fun h => Name.noConfusion h⟩

/-- C1 (amended): the three regression values the merger actually computes, for every instantiation: multipyramid of the empty list is Nullitope; multipyramid of a single Point is Pyramid of Nullitope, one absorbed unit pyramid wrapping the empty merge; multipyramid of two Points is Dyad, the rank-1 simplex combining the two absorbed unit pyramids. -/
theorem multipyramid_unit_regressions {R P : Type} (K : NameKind R P) :
    Name.multipyramid K [] = .Nullitope ∧
    Name.multipyramid K [.Point] = .Pyramid .Nullitope ∧
    Name.multipyramid K [.Point, .Point] = .Dyad :=
  ⟨rfl, rfl, rfl⟩

/-- C2: counterexample to the claim as stated. For the abstract instantiation, whose point capsules always compare equal, take the name Dual of Dual of Point. The inner dual application returns a Dual node whose stored center equals the supplied center, yet applying dual again yields Point, which differs from the original name: the involution fails on names that are themselves nested Dual nodes. -/
theorem dual_dual_nested_counterexample :
    Name.dual Abs (.Dual (.Dual .Point ()) ()) () 2 3 = .Dual .Point () ∧
    Name.dual Abs (Name.dual Abs (.Dual (.Dual .Point ()) ()) () 2 3) () 2 3 = .Point ∧
    (Name.Point : Name Unit Unit) ≠ .Dual (.Dual .Point ()) () :=
  ⟨rfl, rfl, fun h => Name.noConfusion h⟩

/-- C2 (amended): when the inner dual application returns a Dual node, then provided the input is not itself a Dual variant, the stored center necessarily equals the supplied center and the second dual application with that center returns the original name exactly; and whenever the returned Dual node stores a center different from the supplied one, the second application does not nest a further Dual node but falls back to the Generic name built from the ambient facet count and rank. -/
theorem dual_dual_center_behavior {R P : Type} [DecidableEq P] (K : NameKind R P)
    (n b : Name R P) (center c' : P) (fc : Nat) (rank : Int) :
    (Name.dual K n center fc rank = .Dual b c' → n.isDualV = false →
      c' = center ∧ Name.dual K (Name.dual K n center fc rank) center fc rank = n) ∧
    (Name.dual K n center fc rank = .Dual b c' → c' ≠ center →
      Name.dual K (Name.dual K n center fc rank) center fc rank = .Generic fc rank) := by
  constructor
  · intro h hn
    obtain ⟨hb, hc⟩ := Name.dual_eq_Dual_inv K n b center c' fc rank hn h
    subst hb; subst hc
    refine ⟨rfl, ?_⟩
    rw [h]
    simp [Name.dual]
  · intro h hne
    by_cases hn : n.isDualV = false
    · obtain ⟨hb, hc⟩ := Name.dual_eq_Dual_inv K n b center c' fc rank hn h
      exact absurd hc hne
    · cases n <;> try exact absurd rfl hn
      rename_i nb c0
      by_cases hc0 : center = c0
      · have hx : Name.dual K (.Dual nb c0) center fc rank = nb := by
          simp [Name.dual, hc0]
        rw [hx] at h ⊢
        rw [h]
        show (if center = c' then b else Name.Generic fc rank) = .Generic fc rank
        exact if_neg (fun hh => hne hh.symm)
      · have hx : Name.dual K (.Dual nb c0) center fc rank = .Generic fc rank := by
          simp [Name.dual, hc0]
        rw [hx] at h
        cases h

/-- C2: witness instantiating both halves of the amended statement at concrete inputs. -/
theorem dual_dual_center_behavior_witness :
    Name.dual Abs (Name.dual Abs (.Petrial .Point) () 2 3) () 2 3 = .Petrial .Point ∧
    Name.dual (ConK nearE) (Name.dual (ConK nearE) (.Dual (.Dual .Point 1) 0) 0 2 3) 0 2 3 =
      .Generic 2 3 :=
  ⟨((dual_dual_center_behavior Abs (.Petrial .Point) (.Petrial .Point) () () 2 3).1 rfl rfl).2,
   (dual_dual_center_behavior (ConK nearE) (.Dual (.Dual .Point 1) 0) .Point 0 1 2 3).2 rfl
     (by decide)⟩

/-- C3: dual applied to a Dual node compares the supplied center with the stored one; on a match it returns the unboxed base unchanged, otherwise the Generic name built from the supplied ambient facet count and rank. -/
theorem dual_of_dual_node {R P : Type} [DecidableEq P] (K : NameKind R P)
    (base : Name R P) (original_center center : P) (fc : Nat) (rank : Int) :
    Name.dual K (.Dual base original_center) center fc rank =
      if center = original_center then base else .Generic fc rank :=
  rfl

/-- C4: counterexample to the claim as stated. The input Prism node is valid for is_valid, which checks only the top node, but it hides a Multiprism whose child is itself a Multiprism; prism splices that hidden list into a new Multiprism whose direct child is a Multiprism, so the output fails is_valid. -/
theorem construction_validity_counterexample :
    Name.is_valid Abs (.Prism (.Multiprism [.Multiprism [.Square, .Square], .Square])) = true ∧
    Name.is_valid Abs
      (Name.prism Abs (.Prism (.Multiprism [.Multiprism [.Square, .Square], .Square]))) =
      false :=
  ⟨rfl, rfl⟩

/-- C4 (amended): every construction operation returns a recursively valid name, where validity of inputs must also be recursive, meaning every subnode passes is_valid; additionally the side count handed to polygon must be at least 2, rank arguments at least -1 as the Rust Rank type guarantees, generic and dual take facet count at least 2 and rank between 3 and 20, and the input to dual must contain no Dual subnode, since the dual of a Dual node can unwrap to a multi-operation name that then nests inside a same-kind multi-operation. The lawfulness hypothesis records the two NameData facts both real instantiations satisfy. -/
theorem construction_ops_preserve_validity {R P : Type} [DecidableEq P]
    (K : NameKind R P) (hK : K.lawful) :
    (∀ (n : Nat) (rank : Int), 2 ≤ n → 3 ≤ rank → rank ≤ 20 →
      Name.allValid K (Name.generic K n rank) = true) ∧
    (∀ (r : R) (n : Nat), 2 ≤ n → Name.allValid K (Name.polygon K r n) = true) ∧
    (∀ (r : R) (rank : Int), -1 ≤ rank →
      Name.allValid K (Name.simplex (P := P) r rank) = true) ∧
    (∀ (r : R) (rank : Int), -1 ≤ rank →
      Name.allValid K (Name.hyperblock K r rank) = true) ∧
    (∀ (r : R) (rank : Int), -1 ≤ rank →
      Name.allValid K (Name.orthoplex K r rank) = true) ∧
    (∀ n : Name R P, Name.allValid K n = true →
      Name.allValid K (Name.pyramid K n) = true) ∧
    (∀ n : Name R P, Name.allValid K n = true →
      Name.allValid K (Name.prism K n) = true) ∧
    (∀ n : Name R P, Name.allValid K n = true →
      Name.allValid K (Name.tegum K n) = true) ∧
    (∀ n : Name R P, Name.allValid K n = true →
      Name.allValid K (Name.antiprism K n) = true) ∧
    (∀ n : Name R P, Name.allValid K n = true →
      Name.allValid K (Name.petrial n) = true) ∧
    (∀ (n : Name R P) (center : P) (fc : Nat) (rank : Int),
      Name.allValid K n = true → Name.noDual n = true →
      2 ≤ fc → 3 ≤ rank → rank ≤ 20 →
      Name.allValid K (Name.dual K n center fc rank) = true) ∧
    (∀ bases : List (Name R P), (∀ b ∈ bases, Name.allValid K b = true) →
      Name.allValid K (Name.multipyramid K bases) = true) ∧
    (∀ bases : List (Name R P), (∀ b ∈ bases, Name.allValid K b = true) →
      Name.allValid K (Name.multiprism K bases) = true) ∧
    (∀ bases : List (Name R P), (∀ b ∈ bases, Name.allValid K b = true) →
      Name.allValid K (Name.multitegum K bases) = true) ∧
    (∀ bases : List (Name R P), (∀ b ∈ bases, Name.allValid K b = true) →
      Name.allValid K (Name.multicomb (P := P) bases) = true) :=
  ⟨fun n rank h2 h3 h20 => Name.generic_allValid K n rank h2 h3 h20,
   fun r n h2 => Name.polygon_allValid K r n h2,
   fun r rank h1 => Name.simplex_allValid K r rank h1,
   fun r rank h1 => Name.hyperblock_allValid K r rank h1,
   fun r rank h1 => Name.orthoplex_allValid K r rank h1,
   fun n h => Name.pyramid_allValid K n h,
   fun n h => Name.prism_allValid K n h,
   fun n h => Name.tegum_allValid K n h,
   fun n h => Name.antiprism_allValid K n h,
   fun n h => Name.petrial_allValid K n h,
   fun n center fc rank hv hnd _ _ _ =>
     Name.dual_allValid K hK (sizeOf n) n center fc rank le_rfl hv hnd,
   fun bases hb => Name.multipyramid_allValid K bases hb,
   fun bases hb => Name.multiprism_allValid K bases hb,
   fun bases hb => Name.multitegum_allValid K bases hb,
   fun bases hb => Name.multicomb_allValid K bases hb⟩

/-- C4: witness evaluating the pyramid clause at the abstract instantiation and the dual clause at the concrete one. -/
theorem construction_ops_preserve_validity_witness :
    Name.allValid Abs (Name.pyramid Abs (.Pyramid (.Petrial .Point))) = true ∧
    Name.allValid (ConK nearE) (Name.dual (ConK nearE) (.Prism .Square) 0 2 3) = true :=
  ⟨(construction_ops_preserve_validity Abs Abs_lawful).2.2.2.2.2.1 _ rfl,
   (construction_ops_preserve_validity (ConK nearE)
      (ConK_lawful nearE)).2.2.2.2.2.2.2.2.2.2.1
      (.Prism .Square) 0 2 3 rfl rfl (by omega) (by omega) (by omega)⟩

/-- C5: counterexample to the claim as stated. On the raw name Petrial of Petrial of Point, applying petrial twice unwraps to Point, which differs from the input: the involution fails on directly nested Petrial nodes, which the smart constructor itself never builds but the claim quantifies over. -/
theorem petrial_involution_counterexample :
    Name.petrial (Name.petrial (.Petrial (.Petrial (.Point : Name Unit Unit)))) = .Point ∧
    (.Point : Name Unit Unit) ≠ .Petrial (.Petrial .Point) :=
  ⟨rfl, fun h => Name.noConfusion h⟩

/-- C5 (amended): petrial is an involution on every name that is not a Petrial node whose base is itself a Petrial node. -/
theorem petrial_involution_amended {R P : Type} (n : Name R P)
    (h : ∀ b : Name R P, n ≠ .Petrial (.Petrial b)) :
    Name.petrial (Name.petrial n) = n := by
  cases n <;> try rfl
  rename_i base
  cases base <;> try rfl
  exact absurd rfl (h _)

/-- C5: witness applying the amended involution at the name Point. -/
theorem petrial_involution_amended_witness :
    Name.petrial (Name.petrial (.Point : Name Unit Unit)) = .Point :=
  petrial_involution_amended .Point (fun _ h => Name.noConfusion h)

/-- C6: when the capability marker is Abstract, dual distributes over Pyramid, Prism, Tegum and the four multi-operations, dualizing each base with the same center, facet count and rank and re-wrapping in the dual kind, with Pyramid to Pyramid, Prism to Tegum, Tegum to Prism, Multiprism to Multitegum, Multitegum to Multiprism, and Multipyramid and Multicomb to themselves; when the marker is Concrete, the result is the explicit Dual node around the untouched modifier with the supplied center and no recursion. -/
theorem dual_modifier_distribution {R P : Type} [DecidableEq P] (K : NameKind R P)
    (base : Name R P) (bases : List (Name R P)) (center : P) (fc : Nat) (rank : Int) :
    (K.isAbstract = true →
      Name.dual K (.Pyramid base) center fc rank = .Pyramid (Name.dual K base center fc rank) ∧
      Name.dual K (.Prism base) center fc rank = .Tegum (Name.dual K base center fc rank) ∧
      Name.dual K (.Tegum base) center fc rank = .Prism (Name.dual K base center fc rank) ∧
      Name.dual K (.Multipyramid bases) center fc rank =
        .Multipyramid (bases.map (fun b => Name.dual K b center fc rank)) ∧
      Name.dual K (.Multiprism bases) center fc rank =
        .Multitegum (bases.map (fun b => Name.dual K b center fc rank)) ∧
      Name.dual K (.Multitegum bases) center fc rank =
        .Multiprism (bases.map (fun b => Name.dual K b center fc rank)) ∧
      Name.dual K (.Multicomb bases) center fc rank =
        .Multicomb (bases.map (fun b => Name.dual K b center fc rank))) ∧
    (K.isAbstract = false →
      Name.dual K (.Pyramid base) center fc rank = .Dual (.Pyramid base) center ∧
      Name.dual K (.Prism base) center fc rank = .Dual (.Prism base) center ∧
      Name.dual K (.Tegum base) center fc rank = .Dual (.Tegum base) center ∧
      Name.dual K (.Multipyramid bases) center fc rank = .Dual (.Multipyramid bases) center ∧
      Name.dual K (.Multiprism bases) center fc rank = .Dual (.Multiprism bases) center ∧
      Name.dual K (.Multitegum bases) center fc rank = .Dual (.Multitegum bases) center ∧
      Name.dual K (.Multicomb bases) center fc rank = .Dual (.Multicomb bases) center) := by
  constructor
  · intro h
    refine ⟨?_, ?_, ?_, ?_, ?_, ?_, ?_⟩ <;>
      simp [Name.dual, h, Name.dualList_eq_map]
  · intro h
    refine ⟨?_, ?_, ?_, ?_, ?_, ?_, ?_⟩ <;>
      simp [Name.dual, h]

/-- C6: witness at the abstract and concrete instantiations on a pyramid over a petrial. -/
theorem dual_modifier_distribution_witness :
    Name.dual Abs (.Pyramid (.Petrial .Point)) () 2 3 =
      .Pyramid (Name.dual Abs (.Petrial .Point) () 2 3) ∧
    Name.dual (ConK nearE) (.Pyramid (.Petrial .Point)) 0 2 3 =
      .Dual (.Pyramid (.Petrial .Point)) 0 :=
  ⟨((dual_modifier_distribution Abs (.Petrial .Point) [] () 2 3).1 rfl).1,
   ((dual_modifier_distribution (ConK nearE) (.Petrial .Point) [] 0 2 3).2 rfl).1⟩

/-- C7: pyramid applied to a Simplex increments the rank in place exactly when the regularity capsule can contain Regular::No, which is always true for the abstract instantiation and true for the concrete one exactly when the stored record is No; a genuinely regular concrete simplex is wrapped in an explicit Pyramid node instead. -/
theorem pyramid_of_simplex :
    (∀ (regular : Unit) (rank : Int),
      Name.pyramid Abs (.Simplex regular rank) = .Simplex regular (rank + 1)) ∧
    (∀ (near : Pt → Pt → Bool) (rank : Int),
      Name.pyramid (ConK near) (.Simplex .no rank) = .Simplex .no (rank + 1)) ∧
    (∀ (near : Pt → Pt → Bool) (c : Pt) (rank : Int),
      Name.pyramid (ConK near) (.Simplex (.yes c) rank) =
        .Pyramid (.Simplex (.yes c) rank)) :=
  ⟨fun _ _ => rfl, fun _ _ => rfl, fun _ _ _ => rfl⟩

/-- C8: is_valid rejects a raw concrete Polygon that is regular with 3 sides while accepting the exempt side count 2, rejects a raw Multipyramid with a single base, rejects any multi-operation node with a direct child of the same kind, and accepts every name whose variant is not among those the validity table constrains: Polygon, the four multi-operations, Simplex, Hyperblock, Orthoplex and Generic. -/
theorem is_valid_rejections :
    (∀ (near : Pt → Pt → Bool) (c : Pt),
      Name.is_valid (ConK near) (.Polygon (.yes c) 3) = false) ∧
    (∀ (near : Pt → Pt → Bool) (r : Regular),
      Name.is_valid (ConK near) (.Polygon r 2) = true) ∧
    (∀ {R P : Type} (K : NameKind R P),
      Name.is_valid K (.Multipyramid [(.Dyad : Name R P)]) = false) ∧
    (∀ {R P : Type} (K : NameKind R P) (bases : List (Name R P)) (b : Name R P),
      b ∈ bases →
      (b.discr = 11 → Name.is_valid K (.Multipyramid bases) = false) ∧
      (b.discr = 12 → Name.is_valid K (.Multiprism bases) = false) ∧
      (b.discr = 13 → Name.is_valid K (.Multitegum bases) = false) ∧
      (b.discr = 14 → Name.is_valid K (.Multicomb bases) = false)) ∧
    (∀ {R P : Type} (K : NameKind R P) (n : Name R P),
      n.discr ∉ ([7, 11, 12, 13, 14, 19, 20, 21, 22] : List Nat) →
      Name.is_valid K n = true) := by
  refine ⟨fun _ _ => rfl, fun _ _ => rfl, fun _ => rfl, ?_, ?_⟩
  · intro R P K bases b hmem
    refine ⟨fun hd => ?_, fun hd => ?_, fun hd => ?_, fun hd => ?_⟩ <;>
      · have hall : bases.all (fun x => x.discr != b.discr) = false := by
          rw [List.all_eq_false]
          exact ⟨b, hmem, by simp⟩
        rw [hd] at hall
        simp [Name.is_valid, hall]
  · intro R P K n hn
    cases n <;> first
      | rfl
      | (exfalso; exact hn (by simp [Name.discr]))

/-- C8: witness exercising the same-kind rejection and the unconstrained acceptance at concrete names. -/
theorem is_valid_rejections_witness :
    Name.is_valid Abs (.Multipyramid [.Multipyramid [.Point, .Point], .Dyad]) = false ∧
    Name.is_valid Abs ((.Pyramid .Point : Name Unit Unit)) = true :=
  ⟨(is_valid_rejections.2.2.2.1 Abs _ (.Multipyramid [.Point, .Point])
      (List.mem_cons_self _ _)).1 rfl,
   is_valid_rejections.2.2.2.2 Abs _ (by decide)⟩

/-- C9: from_src returns some name exactly when the line starts with the marker character, at least one character follows it, and the decode of the remainder succeeds; in every other situation, including decode failure, it returns none rather than failing. -/
theorem from_src_spec {R P : Type} (decode : List Char → Option (Name R P))
    (line : List Char) (nm : Name R P) :
    Name.from_src decode line = some nm ↔
      ∃ rest, line = '#' :: rest ∧ rest ≠ [] ∧ decode rest = some nm := by
  cases line with
  | nil => simp [Name.from_src]
  | cons c rest =>
    by_cases hc : c = '#'
    · subst hc
      cases rest with
      | nil => simp [Name.from_src]
      | cons r rs => simp [Name.from_src]
    · simp [Name.from_src, hc]

/-- C10: the prism and tegum constructors map the Nullitope to itself, an absorbing hardcoded case, whereas pyramid raises it to Point. -/
theorem prism_tegum_nullitope_absorbing {R P : Type} (K : NameKind R P) :
    Name.prism K .Nullitope = .Nullitope ∧
    Name.tegum K .Nullitope = .Nullitope ∧
    Name.pyramid K .Nullitope = .Point :=
  ⟨rfl, rfl, rfl⟩
